import Mathlib

/-!
Verification of the valuation and ranking engine of a stock-portfolio
tracker (portfolio/portfolio.py, portfolio/report.py and
portfolio/account.py).

The Python source keeps share holdings and market close prices in
date-indexed pandas DataFrames.  Here a DataFrame is modelled as a
`Frame`: a list of column names (ticker symbols) together with
date-indexed rows of optional rationals; a missing cell models a pandas
NaN, and dates are abstract naturals (the program's indices are strictly
increasing business days).  Real arithmetic is modelled by exact
rationals.
-/

namespace PortfolioSpec

/-- A cell of a date-indexed table: a present rational or a missing
value (a pandas NaN). -/
abbrev Cell := Option ℚ

/-- A date-indexed table with one column per symbol, modelling a pandas
DataFrame over rationals. -/
structure Frame where
  symbols : List String
  rows : List (ℕ × List Cell)
deriving DecidableEq

/-- First value stored under a date key, modelling a pandas label lookup
on a unique index. -/
def lookupD {α : Type} : List (ℕ × α) → ℕ → Option α
  | [], _ => none
  | r :: rs, d => if r.1 = d then some r.2 else lookupD rs d

/-- Value of the first column named `s` in a row, modelling a pandas
column lookup; `none` when the column is absent. -/
def getCol : List String → List Cell → String → Cell
  | [], _, _ => none
  | _ :: _, [], _ => none
  | t :: ts, c :: cs, s => if t = s then c else getCol ts cs s

/-- The dates of a frame, in row order (the pandas index). -/
def Frame.dates (f : Frame) : List ℕ := f.rows.map Prod.fst

/-- Cell of frame `f` at date `d`, column `s`. -/
def Frame.get (f : Frame) (d : ℕ) (s : String) : Cell :=
  match lookupD f.rows d with
  | some cs => getCol f.symbols cs s
  | none => none

/-- One step of a column-wise backward fill: every missing cell of the
current row takes the corresponding (already filled) cell of the next
row. -/
def fillFrom : List Cell → List Cell → List Cell
  | [], _ => []
  | c :: cs, [] => c :: fillFrom cs []
  | c :: cs, n :: ns =>
    (match c with
     | some x => some x
     | none => n) :: fillFrom cs ns

/-- Column-wise backward fill of the rows of a frame, modelling
`DataFrame.fillna(method="bfill")`: a missing cell takes the next
present value below it in the same column; trailing gaps stay missing. -/
def bfillRows : List (ℕ × List Cell) → List (ℕ × List Cell)
  | [] => []
  | (d, cs) :: rest =>
    let r := bfillRows rest
    (d, fillFrom cs ((r.head?.map Prod.snd).getD [])) :: r

/-- Model of `holdings.fillna(method="bfill")` used by the source's `Portfolio.value`. -/
def Frame.bfill (f : Frame) : Frame :=
  { f with rows := bfillRows f.rows }

/-- Insert a date into a sorted date list, keeping it sorted and
duplicate-free. -/
def insertDate (x : ℕ) : List ℕ → List ℕ
  | [] => [x]
  | y :: ys =>
    if x < y then x :: y :: ys
    else if x = y then y :: ys
    else y :: insertDate x ys

/-- Sorted union of two date axes, modelling the index alignment pandas
performs when combining two differently indexed frames. -/
def axisUnion : List ℕ → List ℕ → List ℕ
  | [], ys => ys
  | x :: xs, ys => insertDate x (axisUnion xs ys)

/-- Union of two column lists, modelling the column alignment pandas
performs when combining two frames.  (pandas additionally sorts the
united columns; column order is irrelevant to the name-based lookups and
row sums the claims are about.) -/
def unionSyms (a b : List String) : List String :=
  a ++ b.filter (fun s => !(a.contains s))

/-- Row sum skipping missing cells, modelling `DataFrame.sum(axis=1)`
(an all-missing row sums to 0, as in pandas). -/
def rowSum (cs : List Cell) : ℚ := (cs.filterMap id).sum

/-- Replace the first column named `s` of a row using `f`; identity when
the column is absent or the row is too short. -/
def updateColList : List String → List Cell → String → (Cell → Cell) → List Cell
  | [], cs, _, _ => cs
  | _ :: _, [], _, _ => []
  | t :: ts, c :: cs, s, f =>
    if t = s then f c :: cs else c :: updateColList ts cs s f

/-- Column assignment `frame[name] = vals`, modelling pandas: overwrite
the column when it exists, otherwise append it on the right. -/
def Frame.setCol (f : Frame) (name : String) (vals : List Cell) : Frame :=
  if f.symbols.contains name then
    { symbols := f.symbols,
      rows := (f.rows.zip vals).map
        (fun rv => (rv.1.1, updateColList f.symbols rv.1.2 name (fun _ => rv.2))) }
  else
    { symbols := f.symbols ++ [name],
      rows := (f.rows.zip vals).map (fun rv => (rv.1.1, rv.1.2 ++ [rv.2])) }

/-- The portfolio state: the `Close` layer of the market-data frame and
the holdings frame (the other price layers of `self.data` play no role
in the claims).  -/
structure Portfolio where
  close : Frame
  holdings : Frame
deriving DecidableEq

/-- One cell of the elementwise product
`self.data["Close"] * self.holdings.fillna(method="bfill")`: missing
whenever either factor is missing, as in pandas. -/
def valueEntry (pf : Portfolio) (d : ℕ) (s : String) : Cell :=
  Option.map₂ (fun a b => a * b) (pf.close.get d s) (pf.holdings.bfill.get d s)

/-- Model of `Portfolio.value`:
`value = self.data["Close"] * self.holdings.fillna(method="bfill")`
followed by `value["Total"] = value.sum(axis=1)`.  The product aligns
both frames on the union of their axes and columns, with a missing
result wherever either factor is missing, exactly as pandas does. -/
def Portfolio.value (pf : Portfolio) : Frame :=
  let syms := unionSyms pf.close.symbols pf.holdings.symbols
  let axis := axisUnion pf.close.dates pf.holdings.bfill.dates
  let prod : Frame :=
    { symbols := syms,
      rows := axis.map (fun d => (d, syms.map (fun s => valueEntry pf d s))) }
  prod.setCol ("Total") (prod.rows.map (fun r => some (rowSum r.2)))

/-- Exceptions the portfolio operations raise: `unknownSymbol` and
`symbolExists` model the explicit `KeyError`s, `invalidQuantity` the
explicit `ValueError`, and `lookupKeyError` the `KeyError`s pandas
itself raises on a failed label lookup. -/
inductive PErr where
  | unknownSymbol
  | invalidQuantity
  | symbolExists
  | lookupKeyError
deriving DecidableEq

/-- Result of a mutating operation.  A raised exception carries the
portfolio state at the moment it was raised (Python mutates `self` in
place, so state changed before a raise stays changed). -/
abbrev MutResult := Except (PErr × Portfolio) (Portfolio × List Cell)

/-- Slice assignment `holdings.loc[date:, symbol] op= ...`: apply `f` to
the `s` cell of every row dated `d` or later. -/
def updateFrom (h : Frame) (s : String) (d : ℕ) (f : Cell → Cell) : Frame :=
  { h with rows := h.rows.map (fun r =>
      if d ≤ r.1 then (r.1, updateColList h.symbols r.2 s f) else r) }

/-- Last row dated at or before `d`, modelling
`index.get_loc(date, method="ffill")` followed by a positional row
fetch; `none` models the `KeyError` raised when no such position
exists. -/
def lastRowLE : List (ℕ × List Cell) → ℕ → Option (ℕ × List Cell)
  | [], _ => none
  | r :: rs, d =>
    if r.1 ≤ d then
      match lastRowLE rs d with
      | some r2 => some r2
      | none => some r
    else lastRowLE rs d

/-- Model of `Portfolio.to_shares`: `cash / last_close` at the forward-filled
close price for `date`.  The outer `none` models the `KeyError` raised
when the date has no position at or before it or the symbol has no
close column; the inner cell is missing when the stored close price is
NaN.  Pure: it reads `self.data` only. -/
def Portfolio.to_shares (pf : Portfolio) (s : String) (cash : ℚ) (d : ℕ) : Option Cell :=
  match lastRowLE pf.close.rows d with
  | none => none
  | some r =>
    if pf.close.symbols.contains s then
      some ((getCol pf.close.symbols r.2 s).map (fun p => cash / p))
    else none

/-- Model of `Portfolio.to_cash`: `shares * price` at the forward-filled close
price for `date`, with the same error shape as `to_shares`.  Pure: it
reads `self.data` only. -/
def Portfolio.to_cash (pf : Portfolio) (s : String) (shares : ℚ) (d : ℕ) : Option Cell :=
  match lastRowLE pf.close.rows d with
  | none => none
  | some r =>
    if pf.close.symbols.contains s then
      some ((getCol pf.close.symbols r.2 s).map (fun p => shares * p))
    else none

/-- Model of `Portfolio.add_shares`: raise `KeyError` unless the symbol is a
holdings column, raise `ValueError` unless the quantity is positive,
then `holdings.loc[date:, symbol] += quantity` and return
`holdings.loc[date]` (which itself raises when `date` is not a stored
row label). -/
def Portfolio.add_shares (pf : Portfolio) (s : String) (q : ℚ) (d : ℕ) : MutResult :=
  if pf.holdings.symbols.contains s = false then .error (.unknownSymbol, pf)
  else if q ≤ 0 then .error (.invalidQuantity, pf)
  else
    let h2 := updateFrom pf.holdings s d (Option.map (fun x => x + q))
    let pf2 : Portfolio := { pf with holdings := h2 }
    match lookupD h2.rows d with
    | some cs => .ok (pf2, cs)
    | none => .error (.lookupKeyError, pf2)

/-- Model of `Portfolio.remove_shares`: same validation as `add_shares`, then
`holdings.loc[date:, symbol] -= quantity`. -/
def Portfolio.remove_shares (pf : Portfolio) (s : String) (q : ℚ) (d : ℕ) : MutResult :=
  if pf.holdings.symbols.contains s = false then .error (.unknownSymbol, pf)
  else if q ≤ 0 then .error (.invalidQuantity, pf)
  else
    let h2 := updateFrom pf.holdings s d (Option.map (fun x => x - q))
    let pf2 : Portfolio := { pf with holdings := h2 }
    match lookupD h2.rows d with
    | some cs => .ok (pf2, cs)
    | none => .error (.lookupKeyError, pf2)

/-- Model of `Portfolio.set_shares`: same validation as `add_shares`, then
`holdings.loc[date:, symbol] = quantity`. -/
def Portfolio.set_shares (pf : Portfolio) (s : String) (q : ℚ) (d : ℕ) : MutResult :=
  if pf.holdings.symbols.contains s = false then .error (.unknownSymbol, pf)
  else if q ≤ 0 then .error (.invalidQuantity, pf)
  else
    let h2 := updateFrom pf.holdings s d (fun _ => some q)
    let pf2 : Portfolio := { pf with holdings := h2 }
    match lookupD h2.rows d with
    | some cs => .ok (pf2, cs)
    | none => .error (.lookupKeyError, pf2)

/-- Model of `Portfolio.add_cash`: validate symbol and quantity, convert the cash
to shares at the date's forward-filled close price, then
`holdings.loc[date:, symbol] += shares`.  A NaN share count (missing
close price) propagates into the updated cells, as in pandas. -/
def Portfolio.add_cash (pf : Portfolio) (s : String) (q : ℚ) (d : ℕ) : MutResult :=
  if pf.holdings.symbols.contains s = false then .error (.unknownSymbol, pf)
  else if q ≤ 0 then .error (.invalidQuantity, pf)
  else
    match pf.to_shares s q d with
    | none => .error (.lookupKeyError, pf)
    | some sh =>
      let h2 := updateFrom pf.holdings s d (fun c => Option.map₂ (fun a b => a + b) c sh)
      let pf2 : Portfolio := { pf with holdings := h2 }
      match lookupD h2.rows d with
      | some cs => .ok (pf2, cs)
      | none => .error (.lookupKeyError, pf2)

/-- Model of `Portfolio.remove_cash`: the source performs NO symbol or quantity
validation here (unlike its five sibling mutators): it converts the
cash to shares and immediately runs
`holdings.loc[date:, symbol] -= shares`.  The only raises are the
pandas lookup `KeyError`s from `to_shares` and from the slice
assignment / row fetch on a missing column or row label. -/
def Portfolio.remove_cash (pf : Portfolio) (s : String) (q : ℚ) (d : ℕ) : MutResult :=
  match pf.to_shares s q d with
  | none => .error (.lookupKeyError, pf)
  | some sh =>
    if pf.holdings.symbols.contains s = false then .error (.lookupKeyError, pf)
    else
      let h2 := updateFrom pf.holdings s d (fun c => Option.map₂ (fun a b => a - b) c sh)
      let pf2 : Portfolio := { pf with holdings := h2 }
      match lookupD h2.rows d with
      | some cs => .ok (pf2, cs)
      | none => .error (.lookupKeyError, pf2)

/-- Model of `Portfolio.add_symbol`: raise `KeyError` when the symbol is already
a holdings column, otherwise `holdings.loc[date:, symbol] = quantity`
creates the new column, set from `date` forward and missing before it.
The subsequent market-data refetch for the enlarged symbol set is a
call to the out-of-scope external provider and leaves the modelled
close series unchanged. -/
def Portfolio.add_symbol (pf : Portfolio) (s : String) (q : ℚ) (d : ℕ) :
    Except (PErr × Portfolio) Portfolio :=
  if pf.holdings.symbols.contains s then .error (.symbolExists, pf)
  else
    .ok { pf with holdings :=
      { symbols := pf.holdings.symbols ++ [s],
        rows := pf.holdings.rows.map
          (fun r => (r.1, r.2 ++ [if d ≤ r.1 then some q else none])) } }

/-- Keep-first row deduplication over the column values (the date index
does not participate), modelling `DataFrame.drop_duplicates()`. -/
def dropDupAux (seen : List (List Cell)) : List (ℕ × List Cell) → List (ℕ × List Cell)
  | [] => []
  | r :: rest =>
    if seen.contains r.2 then dropDupAux seen rest
    else r :: dropDupAux (r.2 :: seen) rest

/-- Model of `Portfolio.export` to a `.csv` destination:
`self.holdings.drop_duplicates().to_csv(filename)` — the frame written
to the file. -/
def Portfolio.exportCSV (pf : Portfolio) : Frame :=
  { pf.holdings with rows := dropDupAux [] pf.holdings.rows }

/-- One write into the HDF backing store. -/
inductive StoreOp where
  | putHoldings (f : Frame)
  | putData (f : Frame)
deriving DecidableEq

/-- Model of the dunder exit method: the store operations performed on release.
The source writes both keys unconditionally:
`self.holdings.to_hdf(...); self.data.to_hdf(...)`. -/
def Portfolio.exitOps (pf : Portfolio) : List StoreOp :=
  [StoreOp.putHoldings pf.holdings, StoreOp.putData pf.close]

/-- Model of `reindex(self.data.index, method="ffill")`: conform the holdings to
the price axis.  A label present in the old index keeps its row; a
missing label takes the row of the nearest earlier label; labels before
the first old label get an all-missing row. -/
def reindexFfill (h : Frame) (axis : List ℕ) : Frame :=
  { symbols := h.symbols,
    rows := axis.map (fun d =>
      (d, match lastRowLE h.rows d with
          | some r => r.2
          | none => List.replicate h.symbols.length (none : Cell))) }

/-- Model of `.dropna()` with pandas defaults: drop every row containing ANY
missing cell (not only fully-empty rows). -/
def dropnaAny (f : Frame) : Frame :=
  { f with rows := f.rows.filter (fun r => r.2.all (fun c => c.isSome)) }

/-- The tail of `Portfolio.__init__`: given market data and holdings,
settle the state with
`self.holdings = self.holdings.reindex(self.data.index, method="ffill").dropna()`. -/
def portfolioInit (data holdings : Frame) : Portfolio :=
  { close := data, holdings := dropnaAny (reindexFfill holdings data.dates) }

/-- Model of the constructor on the load-from-store path: read the two
stored frames and settle them.  (The time-gated external refresh of
market data is an out-of-scope provider call and is not modelled.) -/
def loadPortfolio (storedHoldings storedData : Frame) : Portfolio :=
  portfolioInit storedData storedHoldings

/-- The `Total` column of `Portfolio.value` as a date-indexed series
(`pf.value["Total"]`). -/
def totalSeries (pf : Portfolio) : List (ℕ × ℚ) :=
  pf.value.rows.filterMap
    (fun r => (getCol pf.value.symbols r.2 ("Total")).map (fun t => (r.1, t)))

/-- Model of `Series.diff()`: first entry NaN, then each entry minus its
predecessor. -/
def seriesDiff (L : List (ℕ × ℚ)) : List (ℕ × Option ℚ) :=
  match L with
  | [] => []
  | a :: rest =>
    (a.1, none) :: List.zipWith (fun cur prev => (cur.1, some (cur.2 - prev.2))) rest L

/-- Model of `Series.pct_change(1)`: first entry NaN, then each entry divided by
its predecessor, minus one. -/
def seriesPct (L : List (ℕ × ℚ)) : List (ℕ × Option ℚ) :=
  match L with
  | [] => []
  | a :: rest =>
    (a.1, none) :: List.zipWith (fun cur prev => (cur.1, some (cur.2 / prev.2 - 1))) rest L

/-- The day-over-day statistics of `Report.get_overall_report`:
`difference = pf.value["Total"].diff()[date]` and
`pct_difference = pf.value["Total"].pct_change(1)[date] * 100`; `none`
models the NaN landing in the report data on the first stored date. -/
def dailyChange (pf : Portfolio) (d : ℕ) : Option ℚ × Option ℚ :=
  let L := totalSeries pf
  ((lookupD (seriesDiff L) d).join,
   ((lookupD (seriesPct L) d).join).map (fun p => p * 100))

/-- Descending rank of the value `x` among the present cells of a
window, with pandas' default average tie handling
(`rank(ascending=False)`): the count of strictly greater values plus
the average position among the ties. -/
def rankDesc (cells : List Cell) (x : ℚ) : ℚ :=
  let vals := cells.filterMap id
  ((vals.filter (fun y => decide (x < y))).length : ℚ) +
    (((vals.filter (fun y => decide (y = x))).length : ℚ) + 1) / 2

/-- Model of `value.loc[start:end, "Total"].rank(ascending=False)[date]` of
`Report.get_overall_report`, on an already windowed total series. -/
def rankValue (L : List (ℕ × ℚ)) (d : ℕ) : Option ℚ :=
  (lookupD L d).map (fun x => rankDesc (L.map (fun r => some r.2)) x)

/-- Model of `value.loc[start:end, "Total"].diff().rank(ascending=False)[date]`
of `Report.get_overall_report`: rank of the day-over-day difference
within the window.  `none` models the NaN rank whose `int(...)`
conversion raises in the source. -/
def rankChange (L : List (ℕ × ℚ)) (d : ℕ) : Option ℚ :=
  match lookupD (seriesDiff L) d with
  | some (some x) => some (rankDesc ((seriesDiff L).map Prod.snd) x)
  | _ => none

/-- An account stores the validated account number verbatim
(`self._number = str(number)`); the other fields play no role in the
claims. -/
structure Account where
  _number : List Char
deriving DecidableEq

/-- Semantics of `re.match` of the account-number pattern (anchored
digits-only, at least eight, dollar anchor) against `str(number)`: in
Python the dollar anchor also matches just before one trailing newline,
so the match succeeds on at least eight ASCII digits optionally
followed by a single final newline. -/
def matchesAccountNumber (s : List Char) : Bool :=
  (8 ≤ s.length && s.all Char.isDigit) ||
  (match s.getLast? with
   | some c => c = '\n' && 8 ≤ s.dropLast.length && s.dropLast.all Char.isDigit
   | none => false)

/-- Model of the account constructor: raise `ValueError` unless the stringified number
matches the pattern, otherwise store it. -/
def Account.make (number : List Char) : Except String Account :=
  if matchesAccountNumber number then .ok { _number := number }
  else .error ("Account numbers must be a minimum of 8 digits with no punctuation.")

/-- The `Account.number` property: asterisks for all but the last four
characters of the stored number, then its last four characters
(`"*" * (len(self._number) - 4) + self._number[-4:]`). -/
def Account.number (a : Account) : List Char :=
  List.replicate (a._number.length - 4) '*' ++ a._number.drop (a._number.length - 4)

/-!
Concrete data for the spec's TEST scenario: close prices
100, 101, 99, 102, 105 over five business days (2020-01-01, 01-02,
01-03, 01-06, 01-07, here dates 1 to 5) and ten held shares each day.
-/

/-- TEST close prices of the scenario. -/
def closeT : Frame :=
  { symbols := [("TEST")],
    rows := [(1, [some 100]), (2, [some 101]), (3, [some 99]),
             (4, [some 102]), (5, [some 105])] }

/-- TEST holdings of the scenario: ten shares on each of the five days. -/
def holdT : Frame :=
  { symbols := [("TEST")],
    rows := [(1, [some 10]), (2, [some 10]), (3, [some 10]),
             (4, [some 10]), (5, [some 10])] }

/-- The scenario portfolio. -/
def pfT : Portfolio := { close := closeT, holdings := holdT }

/-- The total series of the scenario portfolio, as a plain window. -/
def L5 : List (ℕ × ℚ) := [(1, 1000), (2, 1010), (3, 990), (4, 1020), (5, 1050)]

/-- Close prices with a stored price of zero. -/
def closeZ : Frame := { symbols := [("TEST")], rows := [(1, [some 0])] }

/-- A portfolio whose only close price is zero. -/
def pfZ : Portfolio :=
  { close := closeZ, holdings := { symbols := [("TEST")], rows := [(1, [some 10])] } }

/-- Holdings whose first stored date lies after the first price date. -/
def holdLate : Frame :=
  { symbols := [("TEST")], rows := [(3, [some 10]), (4, [some 10]), (5, [some 10])] }

/-- Holdings with a non-adjacent duplicate row: the values of dates 1
and 3 coincide while date 2 differs. -/
def holdABA : Frame :=
  { symbols := [("TEST")], rows := [(1, [some 10]), (2, [some 20]), (3, [some 10])] }

/-- Portfolio built on `holdABA`. -/
def pfABA : Portfolio := { close := closeT, holdings := holdABA }

/-- Portfolio whose holdings contain exactly one duplicate, consecutive
row (dates 1 and 2) and no other duplicates. -/
def pfConsec : Portfolio :=
  { close := closeT,
    holdings := { symbols := [("TEST")],
                  rows := [(1, [some 10]), (2, [some 10]), (3, [some 20]),
                           (4, [some 30]), (5, [some 40])] } }

/-- An eight-digit account number. -/
def ds8 : List Char := ['0', '0', '1', '2', '3', '4', '5', '6']

/-- Eight digits followed by a trailing newline. -/
def newlineNum : List Char := ['1', '2', '3', '4', '5', '6', '7', '8', '\n']

/-- Two-column close prices, used to show that a partially populated
row is dropped by the settling step. -/
def closeAB : Frame :=
  { symbols := [("A"), ("B")], rows := [(1, [some 1, some 2]), (2, [some 1, some 2])] }

/-- Two-column holdings whose first row is only partially missing. -/
def holdAB : Frame :=
  { symbols := [("A"), ("B")], rows := [(1, [some 10, none]), (2, [some 10, some 20])] }

/-- Equality of raised-or-returned results is decidable, so concrete
runs can be checked by evaluation. -/
instance {e a : Type} [DecidableEq e] [DecidableEq a] : DecidableEq (Except e a) := fun x y =>
  match x, y with
  | .ok v, .ok w =>
    if h : v = w then isTrue (by rw [h]) else isFalse (fun he => by cases he; exact h rfl)
  | .error v, .error w =>
    if h : v = w then isTrue (by rw [h]) else isFalse (fun he => by cases he; exact h rfl)
  | .ok _, .error _ => isFalse (fun he => by cases he)
  | .error _, .ok _ => isFalse (fun he => by cases he)

/-! Helper lemmas about the list-level building blocks. -/

theorem lookupD_map_mem {α : Type} (F : ℕ → α) :
    ∀ (l : List ℕ) (d : ℕ), d ∈ l → lookupD (l.map (fun x => (x, F x))) d = some (F d) := by
  intro l
  induction l with
  | nil => intro d hd; cases hd
  | cons x xs ih =>
    intro d hd
    simp only [List.map_cons, lookupD]
    by_cases hxd : x = d
    · subst hxd; simp
    · rw [if_neg hxd]
      exact ih d ((List.mem_cons.mp hd).resolve_left (fun h => hxd h.symm))

theorem lookupD_mem {α : Type} :
    ∀ (l : List (ℕ × α)) (d : ℕ) (v : α), lookupD l d = some v → (d, v) ∈ l := by
  intro l
  induction l with
  | nil => intro d v h; simp [lookupD] at h
  | cons r rs ih =>
    intro d v h
    simp only [lookupD] at h
    by_cases hrd : r.1 = d
    · rw [if_pos hrd] at h
      obtain rfl : r.2 = v := Option.some.inj h
      obtain rfl : r.1 = d := hrd
      rw [List.mem_cons]
      left
      exact Prod.mk.eta
    · rw [if_neg hrd] at h
      exact List.mem_cons_of_mem _ (ih d v h)

theorem lookupD_getElem {α : Type} :
    ∀ (l : List (ℕ × α)) (i : ℕ) (d : ℕ) (v : α),
      (l.map Prod.fst).Nodup → l[i]? = some (d, v) → lookupD l d = some v := by
  intro l
  induction l with
  | nil => intro i d v _ h; simp at h
  | cons r rs ih =>
    intro i d v hnd h
    simp only [List.map_cons, List.nodup_cons] at hnd
    match i with
    | 0 =>
      simp only [List.getElem?_cons_zero, Option.some.injEq] at h
      rw [h]
      simp [lookupD]
    | i + 1 =>
      simp only [List.getElem?_cons_succ] at h
      have hd : d ∈ rs.map Prod.fst :=
        List.mem_map_of_mem Prod.fst (List.getElem?_mem h)
      have hne : r.1 ≠ d := fun he => hnd.1 (he ▸ hd)
      simp only [lookupD, if_neg hne]
      exact ih i d v hnd.2 h

theorem getCol_map_self (g : String → Cell) :
    ∀ (syms : List String) (s : String), s ∈ syms → getCol syms (syms.map g) s = g s := by
  intro syms
  induction syms with
  | nil => intro s hs; cases hs
  | cons t ts ih =>
    intro s hs
    simp only [List.map_cons, getCol]
    by_cases hts : t = s
    · subst hts; simp
    · rw [if_neg hts]
      exact ih s ((List.mem_cons.mp hs).resolve_left (fun h => hts h.symm))

theorem getCol_append_left :
    ∀ (syms ts : List String) (cs ds : List Cell) (s : String),
      s ∈ syms → syms.length = cs.length →
      getCol (syms ++ ts) (cs ++ ds) s = getCol syms cs s := by
  intro syms
  induction syms with
  | nil => intro ts cs ds s hs _; cases hs
  | cons t ts' ih =>
    intro ts cs ds s hs hlen
    match cs with
    | [] => simp at hlen
    | c :: cs' =>
      simp only [List.cons_append, getCol]
      by_cases hts : t = s
      · rw [if_pos hts, if_pos hts]
      · rw [if_neg hts, if_neg hts]
        exact ih ts cs' ds s
          ((List.mem_cons.mp hs).resolve_left (fun h => hts h.symm))
          (by simpa using hlen)

theorem getCol_append_newname :
    ∀ (syms : List String) (cs : List Cell) (name : String) (c : Cell),
      name ∉ syms → syms.length = cs.length →
      getCol (syms ++ [name]) (cs ++ [c]) name = c := by
  intro syms
  induction syms with
  | nil =>
    intro cs name c _ hlen
    match cs with
    | [] => simp [getCol]
    | _ :: _ => simp at hlen
  | cons t ts ih =>
    intro cs name c hname hlen
    match cs with
    | [] => simp at hlen
    | d :: cs' =>
      simp only [List.cons_append, getCol]
      have hne : t ≠ name := fun he => hname (he ▸ List.mem_cons_self t ts)
      rw [if_neg hne]
      exact ih cs' name c (fun h => hname (List.mem_cons_of_mem _ h)) (by simpa using hlen)

theorem zip_self_map {α β : Type} (v : α → β) :
    ∀ (l : List α), l.zip (l.map v) = l.map (fun x => (x, v x)) := by
  intro l
  induction l with
  | nil => rfl
  | cons x xs ih => simp [List.zip_cons_cons, ih]

theorem mem_insertDate (x d : ℕ) :
    ∀ (l : List ℕ), d ∈ insertDate x l ↔ d = x ∨ d ∈ l := by
  intro l
  induction l with
  | nil => simp [insertDate]
  | cons y ys ih =>
    rcases Nat.lt_trichotomy x y with h | h | h
    · rw [show insertDate x (y :: ys) = x :: y :: ys from by simp [insertDate, h]]
      simp only [List.mem_cons]
    · subst h
      rw [show insertDate x (x :: ys) = x :: ys from by simp [insertDate]]
      simp only [List.mem_cons]
      tauto
    · rw [show insertDate x (y :: ys) = y :: insertDate x ys from by
        simp [insertDate, Nat.not_lt.mpr (le_of_lt h), (ne_of_gt h)]]
      simp only [List.mem_cons, ih]
      tauto

theorem mem_axisUnion (d : ℕ) :
    ∀ (a b : List ℕ), d ∈ axisUnion a b ↔ d ∈ a ∨ d ∈ b := by
  intro a
  induction a with
  | nil => intro b; simp [axisUnion]
  | cons x xs ih =>
    intro b
    simp only [axisUnion, mem_insertDate, ih, List.mem_cons]
    tauto

theorem mem_unionSyms (s : String) (a b : List String) :
    s ∈ unionSyms a b ↔ s ∈ a ∨ s ∈ b := by
  simp only [unionSyms, List.mem_append, List.mem_filter, Bool.not_eq_true',
    List.elem_eq_mem, decide_eq_false_iff_not]
  tauto

theorem bfillRows_keys :
    ∀ (rows : List (ℕ × List Cell)), (bfillRows rows).map Prod.fst = rows.map Prod.fst := by
  intro rows
  induction rows with
  | nil => rfl
  | cons r rest ih =>
    obtain ⟨d, cs⟩ := r
    simp [bfillRows, ih]

theorem bfill_dates (f : Frame) : f.bfill.dates = f.dates := by
  simp [Frame.bfill, Frame.dates, bfillRows_keys]

theorem rowSum_eq_sum_getD :
    ∀ (cs : List Cell), rowSum cs = (cs.map (fun c => c.getD 0)).sum := by
  intro cs
  induction cs with
  | nil => rfl
  | cons c cs ih =>
    cases c with
    | some x =>
      simp only [rowSum, List.filterMap_cons, id, List.map_cons, List.sum_cons,
        Option.getD_some] at ih ⊢
      rw [ih]
    | none =>
      simp only [rowSum, List.filterMap_cons, id, List.map_cons, List.sum_cons,
        Option.getD_none] at ih ⊢
      rw [ih, zero_add]

/-! Structure of the computed value frame. -/

theorem value_symbols (pf : Portfolio)
    (hT : ("Total") ∉ unionSyms pf.close.symbols pf.holdings.symbols) :
    pf.value.symbols = unionSyms pf.close.symbols pf.holdings.symbols ++ [("Total")] := by
  have hc : (unionSyms pf.close.symbols pf.holdings.symbols).contains ("Total") = false := by
    simpa [List.contains] using hT
  simp only [Portfolio.value, Frame.setCol, hc]
  simp

theorem value_rows (pf : Portfolio)
    (hT : ("Total") ∉ unionSyms pf.close.symbols pf.holdings.symbols) :
    pf.value.rows =
      (axisUnion pf.close.dates pf.holdings.dates).map (fun d =>
        (d, (unionSyms pf.close.symbols pf.holdings.symbols).map (fun s => valueEntry pf d s) ++
            [some (rowSum ((unionSyms pf.close.symbols pf.holdings.symbols).map
               (fun s => valueEntry pf d s)))])) := by
  have hc : (unionSyms pf.close.symbols pf.holdings.symbols).contains ("Total") = false := by
    simpa [List.contains] using hT
  simp only [Portfolio.value, Frame.setCol, hc, Bool.false_eq_true, if_false]
  rw [zip_self_map, List.map_map, List.map_map, bfill_dates]
  rfl

theorem get_of_lookup (f : Frame) (d : ℕ) (s : String) (cs : List Cell)
    (h : lookupD f.rows d = some cs) : f.get d s = getCol f.symbols cs s := by
  simp only [Frame.get, h]

theorem value_get_of_mem (pf : Portfolio) (d : ℕ) (t : String)
    (hT : ("Total") ∉ unionSyms pf.close.symbols pf.holdings.symbols)
    (hax : d ∈ axisUnion pf.close.dates pf.holdings.dates)
    (ht : t ∈ unionSyms pf.close.symbols pf.holdings.symbols) :
    pf.value.get d t = valueEntry pf d t := by
  have hrow : lookupD pf.value.rows d =
      some ((unionSyms pf.close.symbols pf.holdings.symbols).map (fun s => valueEntry pf d s) ++
        [some (rowSum ((unionSyms pf.close.symbols pf.holdings.symbols).map
          (fun s => valueEntry pf d s)))]) := by
    rw [value_rows pf hT]
    exact lookupD_map_mem _ _ d hax
  rw [get_of_lookup _ _ _ _ hrow, value_symbols pf hT,
    getCol_append_left _ _ _ _ t ht (by rw [List.length_map]),
    getCol_map_self _ _ t ht]

/-- C1.  For every date on the shared axis and every held symbol, the
value table entry is the close price times the backward-filled holdings
of that symbol on that date, and the `Total` column is the row-wise sum
of the per-symbol values. -/
theorem c1_value_identity (pf : Portfolio) (d : ℕ) (s : String)
    (hT : ("Total") ∉ unionSyms pf.close.symbols pf.holdings.symbols)
    (hd : d ∈ pf.close.dates ∨ d ∈ pf.holdings.dates)
    (hs : s ∈ pf.holdings.symbols) :
    pf.value.get d s =
      Option.map₂ (fun a b => a * b) (pf.close.get d s) (pf.holdings.bfill.get d s) ∧
    pf.value.get d ("Total") =
      some (((unionSyms pf.close.symbols pf.holdings.symbols).map
        (fun t => (pf.value.get d t).getD 0)).sum) := by
  have hax : d ∈ axisUnion pf.close.dates pf.holdings.dates := (mem_axisUnion d _ _).mpr hd
  constructor
  · exact value_get_of_mem pf d s hT hax ((mem_unionSyms s _ _).mpr (Or.inr hs))
  · have hrow : lookupD pf.value.rows d =
        some ((unionSyms pf.close.symbols pf.holdings.symbols).map (fun s => valueEntry pf d s) ++
          [some (rowSum ((unionSyms pf.close.symbols pf.holdings.symbols).map
            (fun s => valueEntry pf d s)))]) := by
      rw [value_rows pf hT]
      exact lookupD_map_mem _ _ d hax
    rw [get_of_lookup _ _ _ _ hrow, value_symbols pf hT,
      getCol_append_newname _ _ _ _ hT (by rw [List.length_map])]
    have hmap : (unionSyms pf.close.symbols pf.holdings.symbols).map
        (fun t => (pf.value.get d t).getD 0) =
        (unionSyms pf.close.symbols pf.holdings.symbols).map
        (fun t => (valueEntry pf d t).getD 0) :=
      List.map_congr_left (fun t ht => by rw [value_get_of_mem pf d t hT hax ht])
    rw [hmap, rowSum_eq_sum_getD, List.map_map]
    rfl

/-- The value frame of the scenario portfolio, fully evaluated: per-day
values 1000, 1010, 990, 1020, 1050 with an equal `Total` column. -/
theorem pfT_value :
    pfT.value =
      { symbols := [("TEST"), ("Total")],
        rows := [(1, [some 1000, some 1000]), (2, [some 1010, some 1010]),
                 (3, [some 990, some 990]), (4, [some 1020, some 1020]),
                 (5, [some 1050, some 1050])] } := by
  simp +decide [pfT, closeT, holdT, Portfolio.value, valueEntry, Frame.setCol, Frame.get,
    Frame.bfill, Frame.dates, bfillRows, fillFrom, lookupD, getCol, unionSyms, axisUnion,
    insertDate, rowSum, updateColList, List.zip, List.zipWith, Option.map₂]
  norm_num

/-- Witness for C1 on the TEST scenario at 2020-01-03 (date 3): the
value entry is the close 99 times the held 10 shares, and the total
column is the row sum. -/
theorem c1_value_identity_witness :
    pfT.value.get 3 ("TEST") = some 990 ∧ pfT.value.get 3 ("Total") = some 990 ∧
    (pfT.value.get 3 ("TEST") =
       Option.map₂ (fun a b => a * b) (pfT.close.get 3 ("TEST"))
         (pfT.holdings.bfill.get 3 ("TEST")) ∧
     pfT.value.get 3 ("Total") =
       some (((unionSyms pfT.close.symbols pfT.holdings.symbols).map
         (fun t => (pfT.value.get 3 t).getD 0)).sum)) :=
  ⟨by rw [pfT_value]; decide, by rw [pfT_value]; decide,
   c1_value_identity pfT 3 ("TEST") (by decide) (by decide) (by decide)⟩

/-! Effect of slice assignment on lookups. -/

theorem lookupD_map_update (u : List Cell → List Cell) (d e : ℕ) :
    ∀ (rows : List (ℕ × List Cell)),
      lookupD (rows.map (fun r => if d ≤ r.1 then (r.1, u r.2) else r)) e =
        (lookupD rows e).map (fun cs => if d ≤ e then u cs else cs) := by
  intro rows
  induction rows with
  | nil => simp [lookupD]
  | cons r rs ih =>
    by_cases hd1 : d ≤ r.1
    · simp only [List.map_cons, if_pos hd1, lookupD]
      by_cases hre : r.1 = e
      · subst hre; simp [hd1]
      · simp [hre, ih]
    · simp only [List.map_cons, if_neg hd1, lookupD]
      by_cases hre : r.1 = e
      · subst hre; simp [hd1]
      · simp [hre, ih]

theorem lookupD_updateFrom (h : Frame) (s : String) (d : ℕ) (f : Cell → Cell) (e : ℕ) :
    lookupD (updateFrom h s d f).rows e =
      (lookupD h.rows e).map
        (fun cs => if d ≤ e then updateColList h.symbols cs s f else cs) :=
  lookupD_map_update (fun cs => updateColList h.symbols cs s f) d e h.rows

theorem getCol_updateColList_self (f : Cell → Cell) :
    ∀ (syms : List String) (cs : List Cell) (s : String),
      s ∈ syms → syms.length ≤ cs.length →
      getCol syms (updateColList syms cs s f) s = f (getCol syms cs s) := by
  intro syms
  induction syms with
  | nil => intro cs s hs _; cases hs
  | cons t ts ih =>
    intro cs s hs hlen
    match cs with
    | [] => simp at hlen
    | c :: cs' =>
      by_cases hts : t = s
      · simp [updateColList, getCol, hts]
      · simp only [updateColList, if_neg hts, getCol]
        exact ih cs' s ((List.mem_cons.mp hs).resolve_left (fun h => hts h.symm))
          (by simpa using hlen)

/-- C2.  On a ledger containing the symbol, with a positive quantity and
a stored date, `add_shares` succeeds, adds the quantity to that symbol's
holdings on the given date and on every stored date after it, and leaves
every cell on earlier dates unchanged. -/
theorem c2_add_shares_forward (pf : Portfolio) (s : String) (q : ℚ) (d : ℕ) (cs : List Cell)
    (hs : s ∈ pf.holdings.symbols) (hq : 0 < q)
    (hrect : ∀ r ∈ pf.holdings.rows, r.2.length = pf.holdings.symbols.length)
    (hd : lookupD pf.holdings.rows d = some cs) :
    ∃ pf2 cs2, pf.add_shares s q d = .ok (pf2, cs2) ∧
      (∀ e : ℕ, d ≤ e →
        pf2.holdings.get e s = (pf.holdings.get e s).map (fun v => v + q)) ∧
      (∀ e : ℕ, e < d → ∀ t : String, pf2.holdings.get e t = pf.holdings.get e t) := by
  have hcont : pf.holdings.symbols.contains s = true := by
    simp [List.contains, hs]
  have hlook : lookupD (updateFrom pf.holdings s d (Option.map (fun x => x + q))).rows d =
      some (updateColList pf.holdings.symbols cs s (Option.map (fun x => x + q))) := by
    rw [lookupD_updateFrom, hd]
    simp
  refine ⟨{ pf with holdings := updateFrom pf.holdings s d (Option.map (fun x => x + q)) },
    updateColList pf.holdings.symbols cs s (Option.map (fun x => x + q)), ?_, ?_, ?_⟩
  · simp only [Portfolio.add_shares, hcont, Bool.true_eq_false, if_false,
      if_neg (not_le.mpr hq), hlook]
  · intro e he
    show (updateFrom pf.holdings s d (Option.map (fun x => x + q))).get e s = _
    rw [Frame.get, Frame.get, lookupD_updateFrom]
    cases hle : lookupD pf.holdings.rows e with
    | none => simp
    | some cs' =>
      simp only [Option.map_some, if_pos he]
      have hmem : (e, cs') ∈ pf.holdings.rows := lookupD_mem _ _ _ hle
      have hlen : pf.holdings.symbols.length ≤ cs'.length := le_of_eq (hrect _ hmem).symm
      exact getCol_updateColList_self _ _ _ _ hs hlen
  · intro e he t
    show (updateFrom pf.holdings s d (Option.map (fun x => x + q))).get e t = _
    rw [Frame.get, Frame.get, lookupD_updateFrom]
    cases hle : lookupD pf.holdings.rows e with
    | none => simp
    | some cs' =>
      simp only [Option.map_some, if_neg (not_le.mpr he)]
      rfl

/-- Witness for C2 on the TEST scenario:
`add_shares("TEST", 5, "2020-01-03")` turns the holdings into
10, 10, 15, 15, 15 and satisfies the forward/backward conclusions. -/
theorem c2_add_shares_forward_witness :
    (pfT.add_shares ("TEST") 5 3).toOption.map (fun p => p.1.holdings.rows) =
      some [(1, [some 10]), (2, [some 10]), (3, [some 15]), (4, [some 15]), (5, [some 15])] ∧
    (∃ pf2 cs2, pfT.add_shares ("TEST") 5 3 = .ok (pf2, cs2) ∧
      (∀ e : ℕ, 3 ≤ e →
        pf2.holdings.get e ("TEST") = (pfT.holdings.get e ("TEST")).map (fun v => v + 5)) ∧
      (∀ e : ℕ, e < 3 → ∀ t : String, pf2.holdings.get e t = pfT.holdings.get e t)) :=
  ⟨by
    simp +decide [pfT, holdT, closeT, Portfolio.add_shares, updateFrom, updateColList,
      lookupD, Except.toOption]
    norm_num,
   c2_add_shares_forward pfT ("TEST") 5 3 [some 10] (by decide) (by norm_num) (by decide)
     (by decide)⟩

/-- C3 (amended).  When the symbol has a nonzero close price at or
before the date, the cash/share round trip is exact: converting a
positive share count to cash and back yields the same share count, and
both conversions are pure reads of the price data. -/
theorem c3_cash_share_round_trip (pf : Portfolio) (s : String) (d : ℕ)
    (r : ℕ × List Cell) (p n : ℚ)
    (hr : lastRowLE pf.close.rows d = some r)
    (hsym : pf.close.symbols.contains s = true)
    (hp : getCol pf.close.symbols r.2 s = some p)
    (hp0 : p ≠ 0) (hn : 0 < n) :
    pf.to_cash s n d = some (some (n * p)) ∧
    pf.to_shares s (n * p) d = some (some n) := by
  have hmem : s ∈ pf.close.symbols := by simpa [List.contains] using hsym
  constructor
  · simp [Portfolio.to_cash, hr, hmem, hp]
  · simp [Portfolio.to_shares, hr, hmem, hp]
    exact mul_div_cancel_right₀ n hp0

/-- Witness for C3 on the TEST scenario: five shares at the close 101 of
date 2 convert to 505 in cash and back to five shares. -/
theorem c3_cash_share_round_trip_witness :
    pfT.to_cash ("TEST") 5 2 = some (some (5 * 101)) ∧
    pfT.to_shares ("TEST") (5 * 101) 2 = some (some 5) :=
  c3_cash_share_round_trip pfT ("TEST") 2 (2, [some 101]) 101 5 (by decide) (by decide)
    (by decide) (by norm_num) (by norm_num)

/-- Counterexample for C3 as stated: with a stored close price of zero
(the data model allows any non-negative price) the round trip collapses
to zero instead of returning the five shares put in.  In the source the
division `0.0 / 0.0` yields NaN; in this exact model it yields zero —
in both cases the result differs from the original share count. -/
theorem c3_round_trip_fails_at_zero_price :
    pfZ.to_cash ("TEST") 5 1 = some (some 0) ∧
    pfZ.to_shares ("TEST") 0 1 = some (some 0) ∧ (0 : ℚ) ≠ 5 := by
  refine ⟨?_, ?_, by norm_num⟩
  · simp [Portfolio.to_cash, pfZ, closeZ, lastRowLE, getCol]
  · simp [Portfolio.to_shares, pfZ, closeZ, lastRowLE, getCol]

/-- C4 (code bug).  `remove_cash` runs with a non-positive quantity: on
the TEST scenario, removing minus ten dollars of cash raises nothing and
INCREASES the holdings from date 2 forward to `10 + 10/101 = 1020/101`
shares, returning normally — where its five sibling mutators would have
raised `ValueError("quantity must be > 0.")` and left the ledger
untouched. -/
theorem c4_remove_cash_skips_validation :
    ((-10 : ℚ) ≤ 0) ∧ (10 : ℚ) < 1020/101 ∧
    pfT.remove_cash ("TEST") (-10) 2 =
      .ok ({ close := closeT,
             holdings := { symbols := [("TEST")],
                           rows := [(1, [some 10]), (2, [some (1020/101)]),
                                    (3, [some (1020/101)]), (4, [some (1020/101)]),
                                    (5, [some (1020/101)])] } },
           [some (1020/101)]) := by
  refine ⟨by norm_num, by norm_num, ?_⟩
  simp +decide [pfT, closeT, holdT, Portfolio.remove_cash, Portfolio.to_shares, lastRowLE,
    getCol, updateFrom, updateColList, lookupD, Option.map₂]
  norm_num

/-! Day-over-day differences of the total series. -/

theorem getElem?_zipWith {α β γ : Type} (f : α → β → γ) :
    ∀ (l1 : List α) (l2 : List β) (i : ℕ),
      (List.zipWith f l1 l2)[i]? =
        match l1[i]?, l2[i]? with
        | some a, some b => some (f a b)
        | _, _ => none := by
  intro l1
  induction l1 with
  | nil => intro l2 i; simp
  | cons a l1 ih =>
    intro l2 i
    match l2 with
    | [] =>
      cases h : (a :: l1)[i]? <;> simp [h]
    | b :: l2 =>
      match i with
      | 0 => simp
      | i + 1 => simpa using ih l2 i

theorem zipWith_fst_keys (g : (ℕ × ℚ) → (ℕ × ℚ) → Option ℚ) :
    ∀ (l1 l2 : List (ℕ × ℚ)), l1.length ≤ l2.length →
      (List.zipWith (fun cur prev => (cur.1, g cur prev)) l1 l2).map Prod.fst =
        l1.map Prod.fst := by
  intro l1
  induction l1 with
  | nil => simp
  | cons a l1 ih =>
    intro l2 hl
    match l2 with
    | [] => simp at hl
    | b :: l2 => simpa using ih l2 (by simpa using hl)

theorem seriesDiff_keys (L : List (ℕ × ℚ)) :
    (seriesDiff L).map Prod.fst = L.map Prod.fst := by
  match L with
  | [] => rfl
  | a :: rest =>
    simp only [seriesDiff, List.map_cons]
    rw [zipWith_fst_keys (fun cur prev => some (cur.2 - prev.2)) rest (a :: rest)
      (Nat.le_succ _)]

theorem seriesPct_keys (L : List (ℕ × ℚ)) :
    (seriesPct L).map Prod.fst = L.map Prod.fst := by
  match L with
  | [] => rfl
  | a :: rest =>
    simp only [seriesPct, List.map_cons]
    rw [zipWith_fst_keys (fun cur prev => some (cur.2 / prev.2 - 1)) rest (a :: rest)
      (Nat.le_succ _)]

theorem seriesDiff_getElem_succ (L : List (ℕ × ℚ)) (i : ℕ) (dp d : ℕ) (xp x : ℚ)
    (hp : L[i]? = some (dp, xp)) (hc : L[i + 1]? = some (d, x)) :
    (seriesDiff L)[i + 1]? = some (d, some (x - xp)) := by
  match L with
  | [] => simp at hp
  | a :: rest =>
    simp only [seriesDiff, List.getElem?_cons_succ]
    rw [getElem?_zipWith]
    have hr : rest[i]? = some (d, x) := by simpa using hc
    rw [hr, hp]

theorem seriesPct_getElem_succ (L : List (ℕ × ℚ)) (i : ℕ) (dp d : ℕ) (xp x : ℚ)
    (hp : L[i]? = some (dp, xp)) (hc : L[i + 1]? = some (d, x)) :
    (seriesPct L)[i + 1]? = some (d, some (x / xp - 1)) := by
  match L with
  | [] => simp at hp
  | a :: rest =>
    simp only [seriesPct, List.getElem?_cons_succ]
    rw [getElem?_zipWith]
    have hr : rest[i]? = some (d, x) := by simpa using hc
    rw [hr, hp]

theorem seriesDiff_head (L : List (ℕ × ℚ)) (d0 : ℕ) (x0 : ℚ)
    (h0 : L[0]? = some (d0, x0)) : lookupD (seriesDiff L) d0 = some none := by
  match L with
  | [] => simp at h0
  | a :: rest =>
    have ha : a = (d0, x0) := by simpa using h0
    subst ha
    simp [seriesDiff, lookupD]

theorem seriesPct_head (L : List (ℕ × ℚ)) (d0 : ℕ) (x0 : ℚ)
    (h0 : L[0]? = some (d0, x0)) : lookupD (seriesPct L) d0 = some none := by
  match L with
  | [] => simp at h0
  | a :: rest =>
    have ha : a = (d0, x0) := by simpa using h0
    subst ha
    simp [seriesPct, lookupD]

/-- C5.  On a total series with duplicate-free dates, for a date with a
predecessor the report's daily change is
`difference = Total[date] - Total[previous date]` and
`pct_difference = difference / Total[previous date] * 100`; on the first
stored date both statistics degrade to missing (NaN in the report data)
rather than raising. -/
theorem c5_daily_change (pf : Portfolio) (L : List (ℕ × ℚ)) (i : ℕ)
    (dp d d0 : ℕ) (xp x x0 : ℚ)
    (hL : totalSeries pf = L) (hnd : (L.map Prod.fst).Nodup)
    (h0 : L[0]? = some (d0, x0))
    (hp : L[i]? = some (dp, xp)) (hc : L[i + 1]? = some (d, x)) (hxp : xp ≠ 0) :
    dailyChange pf d = (some (x - xp), some ((x - xp) / xp * 100)) ∧
    dailyChange pf d0 = (none, none) := by
  constructor
  · have hd1 : lookupD (seriesDiff L) d = some (some (x - xp)) := by
      apply lookupD_getElem _ (i + 1)
      · rw [seriesDiff_keys]; exact hnd
      · exact seriesDiff_getElem_succ L i dp d xp x hp hc
    have hd2 : lookupD (seriesPct L) d = some (some (x / xp - 1)) := by
      apply lookupD_getElem _ (i + 1)
      · rw [seriesPct_keys]; exact hnd
      · exact seriesPct_getElem_succ L i dp d xp x hp hc
    have hd2' : lookupD (seriesPct L) d = some (some ((x - xp) / xp)) := by
      rw [hd2, div_sub_one hxp]
    simp [dailyChange, hL, hd1, hd2']
  · simp only [dailyChange, hL, seriesDiff_head L d0 x0 h0, seriesPct_head L d0 x0 h0,
      Option.join, Option.map_none]
    rfl

/-- The total series of the scenario portfolio. -/
theorem totalSeries_pfT : totalSeries pfT = L5 := by
  simp only [totalSeries, pfT_value]
  decide

/-- Witness for C5 on the TEST scenario: the change on 2020-01-03
(date 3) is `990 - 1010 = -20` with a percentage near `-1.98`, and the
first date yields no prior data. -/
theorem c5_daily_change_witness :
    dailyChange pfT 3 = (some (990 - 1010), some ((990 - 1010) / 1010 * 100)) ∧
    dailyChange pfT 1 = (none, none) ∧
    ((990 - 1010 : ℚ) = -20) ∧
    ((-199 : ℚ) / 100 < (990 - 1010) / 1010 * 100) ∧
    (((990 : ℚ) - 1010) / 1010 * 100 < (-197) / 100) :=
  ⟨(c5_daily_change pfT L5 1 2 3 1 1010 990 1000 totalSeries_pfT (by decide) (by decide)
      (by decide) (by decide) (by norm_num)).1,
   (c5_daily_change pfT L5 1 2 3 1 1010 990 1000 totalSeries_pfT (by decide) (by decide)
      (by decide) (by decide) (by norm_num)).2,
   by norm_num, by norm_num, by norm_num⟩

/-! Rank bounds. -/

theorem length_filter_add_le (p q : ℚ → Bool) (h : ∀ a : ℚ, ¬(p a = true ∧ q a = true)) :
    ∀ (l : List ℚ), (l.filter p).length + (l.filter q).length ≤ l.length := by
  intro l
  induction l with
  | nil => simp
  | cons a l ih =>
    cases hp : p a with
    | true =>
      cases hq : q a with
      | true => exact absurd ⟨hp, hq⟩ (h a)
      | false =>
        simp [List.filter_cons, hp, hq]
        omega
    | false =>
      cases hq : q a with
      | true =>
        simp [List.filter_cons, hp, hq]
        omega
      | false =>
        simp [List.filter_cons, hp, hq]
        omega

theorem rankDesc_bounds (cells : List Cell) (x : ℚ) (hx : x ∈ cells.filterMap id) :
    1 ≤ rankDesc cells x ∧ rankDesc cells x ≤ (cells.length : ℚ) := by
  have hmain : rankDesc cells x =
      (((cells.filterMap id).filter (fun y => decide (x < y))).length : ℚ) +
        ((((cells.filterMap id).filter (fun y => decide (y = x))).length : ℚ) + 1) / 2 := rfl
  have hk1 : 1 ≤ ((cells.filterMap id).filter (fun y => decide (y = x))).length := by
    have hxm : x ∈ (cells.filterMap id).filter (fun y => decide (y = x)) := by
      rw [List.mem_filter]
      exact ⟨hx, by simp⟩
    exact List.length_pos.mpr (List.ne_nil_of_mem hxm)
  have hgk : ((cells.filterMap id).filter (fun y => decide (x < y))).length +
      ((cells.filterMap id).filter (fun y => decide (y = x))).length ≤
        (cells.filterMap id).length := by
    refine length_filter_add_le _ _ ?_ _
    intro a
    rintro ⟨h1, h2⟩
    have h1' : x < a := of_decide_eq_true h1
    have h2' : a = x := of_decide_eq_true h2
    exact absurd (h2' ▸ h1') (lt_irrefl x)
  have hvc : (cells.filterMap id).length ≤ cells.length := List.length_filterMap_le id cells
  have hk1Q : (1 : ℚ) ≤ (((cells.filterMap id).filter (fun y => decide (y = x))).length : ℚ) := by
    exact_mod_cast hk1
  have hgkQ : (((cells.filterMap id).filter (fun y => decide (x < y))).length : ℚ) +
      (((cells.filterMap id).filter (fun y => decide (y = x))).length : ℚ) ≤
        (cells.length : ℚ) := by
    exact_mod_cast le_trans hgk hvc
  have hg0 : (0 : ℚ) ≤
      (((cells.filterMap id).filter (fun y => decide (x < y))).length : ℚ) :=
    Nat.cast_nonneg _
  constructor
  · rw [hmain]; linarith
  · rw [hmain]; linarith

theorem filterMap_id_map (L : List (ℕ × ℚ)) :
    (L.map (fun r => some r.2)).filterMap id = L.map Prod.snd := by
  induction L with
  | nil => rfl
  | cons a l ih => simp [List.filterMap_cons, ih]

theorem seriesDiff_length (L : List (ℕ × ℚ)) : (seriesDiff L).length = L.length := by
  match L with
  | [] => rfl
  | a :: rest =>
    simp only [seriesDiff, List.length_cons, List.length_zipWith]
    omega

/-- C6 (amended).  In any window, a computed descending rank of the
total value lies between 1 and the window size, and so does the rank of
the day-over-day change whenever that change exists; on the window's
first date the change rank does not exist (its NaN rank makes the
source's `int(...)` conversion raise instead of producing a rank). -/
theorem c6_rank_bounds (L : List (ℕ × ℚ)) (d : ℕ) :
    (∀ r : ℚ, rankValue L d = some r → 1 ≤ r ∧ r ≤ (L.length : ℚ)) ∧
    (∀ r : ℚ, rankChange L d = some r → 1 ≤ r ∧ r ≤ (L.length : ℚ)) ∧
    (∀ (d0 : ℕ) (x0 : ℚ), L[0]? = some (d0, x0) → rankChange L d0 = none) := by
  refine ⟨?_, ?_, ?_⟩
  · intro r hr
    rw [rankValue] at hr
    cases hl : lookupD L d with
    | none => rw [hl] at hr; simp at hr
    | some x =>
      rw [hl] at hr
      replace hr : some (rankDesc (L.map (fun r => some r.2)) x) = some r := hr
      obtain rfl : rankDesc (L.map (fun r => some r.2)) x = r := Option.some.inj hr
      have hx : x ∈ (L.map (fun r => some r.2)).filterMap id := by
        rw [filterMap_id_map]
        exact List.mem_map_of_mem Prod.snd (lookupD_mem L d x hl)
      have hb := rankDesc_bounds _ x hx
      refine ⟨hb.1, ?_⟩
      have := hb.2
      rwa [List.length_map] at this
  · intro r hr
    rw [rankChange] at hr
    cases hl : lookupD (seriesDiff L) d with
    | none => rw [hl] at hr; simp at hr
    | some c =>
      cases c with
      | none => rw [hl] at hr; simp at hr
      | some x =>
        rw [hl] at hr
        replace hr : some (rankDesc ((seriesDiff L).map Prod.snd) x) = some r := hr
        obtain rfl : rankDesc ((seriesDiff L).map Prod.snd) x = r := Option.some.inj hr
        have hx : x ∈ ((seriesDiff L).map Prod.snd).filterMap id := by
          refine List.mem_filterMap.mpr ⟨some x, ?_, rfl⟩
          exact List.mem_map_of_mem Prod.snd (lookupD_mem _ _ _ hl)
        have hb := rankDesc_bounds _ x hx
        refine ⟨hb.1, ?_⟩
        have := hb.2
        rwa [List.length_map, seriesDiff_length] at this
  · intro d0 x0 h0
    rw [rankChange, seriesDiff_head L d0 x0 h0]

/-- Witness for C6 on the TEST scenario’s year-to-date window: on
2020-01-03 the total 990 ranks 5th of 5 and the change -20 ranks 4th of
5, both within the bounds. -/
theorem c6_rank_bounds_witness :
    rankValue L5 3 = some 5 ∧ (1 ≤ (5 : ℚ) ∧ (5 : ℚ) ≤ (L5.length : ℚ)) ∧
    rankChange L5 3 = some 4 ∧ (1 ≤ (4 : ℚ) ∧ (4 : ℚ) ≤ (L5.length : ℚ)) := by
  have hv : rankValue L5 3 = some 5 := by
    simp +decide [rankValue, rankDesc, lookupD, L5]
    norm_num
  have hc : rankChange L5 3 = some 4 := by
    simp +decide [rankChange, rankDesc, seriesDiff, lookupD, L5]
    norm_num
  exact ⟨hv, (c6_rank_bounds L5 3).1 5 hv, hc, (c6_rank_bounds L5 3).2.1 4 hc⟩

/-- Counterexample for C6 as stated: in the five-day TEST window the
day-over-day change of the first date (2020-01-01) has no rank at all —
the windowed `diff()` starts with NaN, whose rank is NaN and whose
`int(...)` conversion raises — so the change rank does not lie in
`[1, N]` for every date of the window. -/
theorem c6_first_date_rank_undefined :
    totalSeries pfT = L5 ∧ rankChange L5 1 = none :=
  ⟨totalSeries_pfT, by decide⟩

/-! Alignment after construction. -/

/-- C7 (amended).  After construction the holdings axis is the price
axis restricted to the dates whose forward-filled row is fully
populated: a sublist of the price axis (not necessarily equal to it),
every surviving row being complete. -/
theorem c7_holdings_axis_sublist (data holdings : Frame) :
    List.Sublist (portfolioInit data holdings).holdings.dates data.dates ∧
    ((portfolioInit data holdings).holdings.rows.all
      (fun r => r.2.all (fun c => c.isSome))) = true := by
  constructor
  · have h1 : List.Sublist
        ((reindexFfill holdings data.dates).rows.filter
          (fun r => r.2.all (fun c => c.isSome)))
        (reindexFfill holdings data.dates).rows := List.filter_sublist _
    have h2 := h1.map Prod.fst
    have h3 : (reindexFfill holdings data.dates).rows.map Prod.fst = data.dates := by
      simp only [reindexFfill, List.map_map]
      have hfun : (Prod.fst ∘ fun d : ℕ =>
          ((d, match lastRowLE holdings.rows d with
               | some r => r.2
               | none => List.replicate holdings.symbols.length (none : Cell)) :
            ℕ × List Cell)) = id := rfl
      rw [hfun, List.map_id]
    rw [h3] at h2
    exact h2
  · rw [List.all_eq_true]
    intro r hr
    have hr' : r ∈ (reindexFfill holdings data.dates).rows.filter
        (fun r => r.2.all (fun c => c.isSome)) := hr
    exact (List.mem_filter.mp hr').2

/-- Counterexample for C7 as stated: the construction step is
`reindex(...).dropna()` with pandas defaults, which drops every row
containing ANY missing cell — including rows that are not fully empty —
so the settled holdings axis can be a strict subset of the price axis.
With holdings starting at date 3 against the five-date TEST price axis
the settled axes differ, and with two columns the partially populated
row of date 1 is dropped even though it is not fully empty. -/
theorem c7_axes_not_conformed :
    (portfolioInit closeT holdLate).holdings.dates = [3, 4, 5] ∧
    closeT.dates = [1, 2, 3, 4, 5] ∧
    (portfolioInit closeT holdLate).holdings.dates ≠ closeT.dates ∧
    (portfolioInit closeAB holdAB).holdings.dates = [2] ∧
    (portfolioInit closeAB holdAB).holdings.dates ≠ closeAB.dates := by decide

/-! Persistence on release. -/

/-- C8 (amended).  Release always persists both series: even when the
settled in-memory holdings coincide with what was loaded, `__exit__`
still writes both keys to the backing store — there is no
unchanged-content skip. -/
theorem c8_exit_always_writes (sh sd : Frame)
    (hload : (loadPortfolio sh sd).holdings = sh) :
    Portfolio.exitOps (loadPortfolio sh sd) =
      [StoreOp.putHoldings sh, StoreOp.putData sd] ∧
    Portfolio.exitOps (loadPortfolio sh sd) ≠ [] := by
  constructor
  · rw [Portfolio.exitOps, hload]
    rfl
  · simp [Portfolio.exitOps]

/-- Witness for C8 on a store whose settling is the identity. -/
theorem c8_exit_always_writes_witness :
    Portfolio.exitOps (loadPortfolio holdT closeT) =
      [StoreOp.putHoldings holdT, StoreOp.putData closeT] ∧
    Portfolio.exitOps (loadPortfolio holdT closeT) ≠ [] :=
  c8_exit_always_writes holdT closeT (by decide)

/-- Counterexample for C8 as stated: loading the TEST store leaves the
content exactly as stored, yet release still performs both writes — the
claimed unchanged-content check does not exist in the source, whose
`__exit__` is two unconditional `to_hdf` calls. -/
theorem c8_unchanged_content_still_written :
    (loadPortfolio holdT closeT).holdings = holdT ∧
    (loadPortfolio holdT closeT).close = closeT ∧
    Portfolio.exitOps (loadPortfolio holdT closeT) =
      [StoreOp.putHoldings holdT, StoreOp.putData closeT] := by decide

/-! Export deduplication. -/

theorem dropDupAux_sublist :
    ∀ (l : List (ℕ × List Cell)) (seen : List (List Cell)),
      List.Sublist (dropDupAux seen l) l := by
  intro l
  induction l with
  | nil => intro seen; simp [dropDupAux]
  | cons r rest ih =>
    intro seen
    cases h : seen.contains r.2 with
    | true =>
      have hm : r.2 ∈ seen := by simpa [List.contains] using h
      rw [show dropDupAux seen (r :: rest) = dropDupAux seen rest from by
        simp [dropDupAux, hm]]
      exact (ih seen).cons r
    | false =>
      have hm : r.2 ∉ seen := by simpa [List.contains] using h
      rw [show dropDupAux seen (r :: rest) = r :: dropDupAux (r.2 :: seen) rest from by
        simp [dropDupAux, hm]]
      exact (ih (r.2 :: seen)).cons₂ r

theorem dropDupAux_nodup_notin :
    ∀ (l : List (ℕ × List Cell)) (seen : List (List Cell)),
      ((dropDupAux seen l).map Prod.snd).Nodup ∧
      ∀ v ∈ (dropDupAux seen l).map Prod.snd, ¬ v ∈ seen := by
  intro l
  induction l with
  | nil => intro seen; simp [dropDupAux]
  | cons r rest ih =>
    intro seen
    cases h : seen.contains r.2 with
    | true =>
      have hm : r.2 ∈ seen := by simpa [List.contains] using h
      rw [show dropDupAux seen (r :: rest) = dropDupAux seen rest from by
        simp [dropDupAux, hm]]
      exact ih seen
    | false =>
      have hnotin : r.2 ∉ seen := by simpa [List.contains] using h
      rw [show dropDupAux seen (r :: rest) = r :: dropDupAux (r.2 :: seen) rest from by
        simp [dropDupAux, hnotin]]
      constructor
      · rw [List.map_cons, List.nodup_cons]
        refine ⟨?_, (ih (r.2 :: seen)).1⟩
        intro hmem
        exact (ih (r.2 :: seen)).2 r.2 hmem (List.mem_cons_self _ _)
      · intro v hv
        rw [List.map_cons, List.mem_cons] at hv
        rcases hv with rfl | hv
        · exact hnotin
        · intro hvseen
          exact (ih (r.2 :: seen)).2 v hv (List.mem_cons_of_mem _ hvseen)

theorem dropDupAux_complete :
    ∀ (l : List (ℕ × List Cell)) (seen : List (List Cell)) (r : ℕ × List Cell),
      r ∈ l → r.2 ∈ seen ∨ r.2 ∈ (dropDupAux seen l).map Prod.snd := by
  intro l
  induction l with
  | nil => intro seen r hr; cases hr
  | cons a rest ih =>
    intro seen r hr
    cases h : seen.contains a.2 with
    | true =>
      have hm : a.2 ∈ seen := by simpa [List.contains] using h
      rw [show dropDupAux seen (a :: rest) = dropDupAux seen rest from by
        simp [dropDupAux, hm]]
      rcases List.mem_cons.mp hr with rfl | hr'
      · exact Or.inl hm
      · exact ih seen r hr'
    | false =>
      have hm : a.2 ∉ seen := by simpa [List.contains] using h
      rw [show dropDupAux seen (a :: rest) = a :: dropDupAux (a.2 :: seen) rest from by
        simp [dropDupAux, hm]]
      rcases List.mem_cons.mp hr with rfl | hr'
      · right
        rw [List.map_cons]
        exact List.mem_cons_self _ _
      · rcases ih (a.2 :: seen) r hr' with hseen | hout
        · rcases List.mem_cons.mp hseen with heq | hseen'
          · right
            rw [List.map_cons, heq]
            exact List.mem_cons_self _ _
          · exact Or.inl hseen'
        · right
          rw [List.map_cons]
          exact List.mem_cons_of_mem _ hout

/-- C9 (amended).  The CSV export writes `drop_duplicates()` of the
holdings: every row whose column values equal those of ANY earlier row
is dropped (keep-first, not only consecutive duplicates).  The exported
rows form a subsequence of the holdings with pairwise distinct value
rows that still covers every value row of the input; on a table with
exactly one (consecutive) duplicate row the export has one fewer row. -/
theorem c9_export_dedup (pf : Portfolio) :
    List.Sublist (pf.exportCSV).rows pf.holdings.rows ∧
    ((pf.exportCSV).rows.map Prod.snd).Nodup ∧
    (pf.holdings.rows.all
      (fun r => decide (r.2 ∈ (pf.exportCSV).rows.map Prod.snd))) = true ∧
    pfConsec.exportCSV.rows.length + 1 = pfConsec.holdings.rows.length := by
  refine ⟨dropDupAux_sublist _ [], (dropDupAux_nodup_notin _ []).1, ?_, by decide⟩
  rw [List.all_eq_true]
  intro r hr
  rw [decide_eq_true_eq]
  rcases dropDupAux_complete pf.holdings.rows [] r hr with h | h
  · cases h
  · exact h

/-- Counterexample for C9 as stated: in a table whose third row repeats
the first (with a different row in between), the source's
`drop_duplicates()` drops the non-adjacent repeat — the claim that such
a row is kept is false. -/
theorem c9_nonadjacent_duplicate_dropped :
    pfABA.holdings.rows.map Prod.fst = [1, 2, 3] ∧
    (pfABA.exportCSV).rows.map Prod.fst = [1, 2] ∧
    (pfABA.exportCSV).rows.length ≠ pfABA.holdings.rows.length := by decide

/-! Account numbers. -/

/-- C10 (amended).  Construction succeeds exactly when the stringified
number is at least eight ASCII digits, optionally followed by one
trailing newline (the Python dollar anchor also matches just before a
final newline).  For an accepted all-digit number, the public accessor
returns a string of the same length whose leading characters are all
asterisks and whose last four characters are the final four digits of
the stored number. -/
theorem c10_account_number (s : List Char) :
    ((∃ a : Account, Account.make s = .ok a) ↔
      ∃ ds : List Char, 8 ≤ ds.length ∧ ds.all Char.isDigit = true ∧
        (s = ds ∨ s = ds ++ ['\n'])) ∧
    (∀ a : Account, Account.make s = .ok a → s.all Char.isDigit = true →
      a.number.length = s.length ∧
      a.number.take (s.length - 4) = List.replicate (s.length - 4) '*' ∧
      a.number.drop (s.length - 4) = s.drop (s.length - 4)) := by
  have hiso : (∃ a : Account, Account.make s = .ok a) ↔ matchesAccountNumber s = true := by
    rw [Account.make]
    cases h : matchesAccountNumber s <;> simp
  constructor
  · rw [hiso]
    constructor
    · intro h
      cases hgl : s.getLast? with
      | none =>
        simp only [matchesAccountNumber, hgl, Bool.or_false, Bool.and_eq_true,
          decide_eq_true_eq] at h
        exact ⟨s, h.1, h.2, Or.inl rfl⟩
      | some c =>
        simp only [matchesAccountNumber, hgl, Bool.or_eq_true, Bool.and_eq_true,
          decide_eq_true_eq] at h
        rcases h with ⟨h1, h2⟩ | hrest
        · exact ⟨s, h1, h2, Or.inl rfl⟩
        · have hc : c = '\n' := by tauto
          have hlen : 8 ≤ s.dropLast.length := by tauto
          have hdig : s.dropLast.all Char.isDigit = true := by tauto
          subst hc
          refine ⟨s.dropLast, hlen, hdig, Or.inr ?_⟩
          exact (List.dropLast_append_getLast? '\n'
            (show s.getLast? = some '\n' from hgl)).symm
    · rintro ⟨ds, hlen, hdig, rfl | rfl⟩
      · simp [matchesAccountNumber, hlen, hdig]
      · simp [matchesAccountNumber, List.getLast?_concat, List.dropLast_concat, hlen, hdig]
  · intro a hmk hdig
    have hmt : matchesAccountNumber s = true := by
      by_contra hf
      rw [Account.make, if_neg hf] at hmk
      cases hmk
    rw [Account.make, if_pos hmt] at hmk
    have ha : a = { _number := s } := (Except.ok.inj hmk).symm
    subst ha
    have hlen8 : 8 ≤ s.length := by
      have hor := hmt
      rw [matchesAccountNumber, Bool.or_eq_true] at hor
      rcases hor with h1 | h2
      · simp only [Bool.and_eq_true, decide_eq_true_eq] at h1
        exact h1.1
      · exfalso
        cases hgl : s.getLast? with
        | none => rw [hgl] at h2; simp at h2
        | some c =>
          rw [hgl] at h2
          simp only [Bool.and_eq_true, decide_eq_true_eq] at h2
          have hcq : c = '\n' := by tauto
          have hcm : c ∈ s := List.mem_of_getLast?_eq_some hgl
          have hcd : c.isDigit = true := by
            rw [List.all_eq_true] at hdig
            exact hdig c hcm
          rw [hcq] at hcd
          exact absurd hcd (by decide)
    refine ⟨?_, ?_, ?_⟩
    · show (List.replicate (s.length - 4) '*' ++ s.drop (s.length - 4)).length = s.length
      rw [List.length_append, List.length_replicate, List.length_drop]
      omega
    · show (List.replicate (s.length - 4) '*' ++ s.drop (s.length - 4)).take (s.length - 4) =
        List.replicate (s.length - 4) '*'
      exact List.take_left' (List.length_replicate _ _)
    · show (List.replicate (s.length - 4) '*' ++ s.drop (s.length - 4)).drop (s.length - 4) =
        s.drop (s.length - 4)
      exact List.drop_left' (List.length_replicate _ _)

/-- Witness for C10: the eight-digit number 00123456 is accepted and
masked as four asterisks followed by its last four digits 3456. -/
theorem c10_account_number_witness :
    Account.make ds8 = .ok { _number := ds8 } ∧
    (({ _number := ds8 } : Account).number.length = ds8.length ∧
     ({ _number := ds8 } : Account).number.take (ds8.length - 4) =
       List.replicate (ds8.length - 4) '*' ∧
     ({ _number := ds8 } : Account).number.drop (ds8.length - 4) =
       ds8.drop (ds8.length - 4)) ∧
    ({ _number := ds8 } : Account).number = ['*', '*', '*', '*', '3', '4', '5', '6'] :=
  ⟨by decide,
   (c10_account_number ds8).2 { _number := ds8 } (by decide) (by decide),
   by decide⟩

/-- Counterexample for C10 as stated: the pattern's dollar anchor also
matches just before a trailing newline, so `"12345678\n"` — which is
not a string of digits only — is accepted by the constructor, and the
masked form then ends in the newline rather than in four digits. -/
theorem c10_trailing_newline_accepted :
    Account.make newlineNum = .ok { _number := newlineNum } ∧
    newlineNum.all Char.isDigit = false ∧
    ({ _number := newlineNum } : Account).number =
      ['*', '*', '*', '*', '*', '6', '7', '8', '\n'] := by decide

end PortfolioSpec
